import Mathlib

/-!
Shallow embedding of `src/embedding_operations.py` (Dokuso-App/utils).

The taxonomy in the source is a nested Python dict.  A node dict may carry
an `'embedding'` key (its value is the vector produced by an embedding
provider, possibly `None`) and, besides that key, string-labelled child
dicts in insertion order.  `Tax α` models such a dict: the `Option α`
field is the value of the `'embedding'` key (`none` = key absent), the
association list is the remaining entries in insertion order.

Cosine similarity (`get_similarity`) is computed on torch float tensors;
no claim is about the numeric formula itself, so the matchers are
parameterised by an abstract score function `sim : α → ℚ` standing for
`get_similarity(query, ·)` with the query fixed.  Exact rationals replace
floats; the cosine range [-1, 1] matters only in that the value -1 is
attainable (query anti-parallel to an embedding).
-/

inductive Tax (α : Type) : Type where
  | mk : Option α → List (String × Tax α) → Tax α
deriving Repr

def Tax.emb {α : Type} : Tax α → Option α
  | .mk e _ => e

def Tax.children {α : Type} : Tax α → List (String × Tax α)
  | .mk _ cs => cs

/-- Raw label hierarchy before any embedding is attached: a nested dict
with no `'embedding'` keys.  An empty dict is a leaf. -/
inductive RawTax : Type where
  | mk : List (String × RawTax) → RawTax
deriving Repr

def RawTax.children : RawTax → List (String × RawTax)
  | .mk cs => cs

/-- Python dict indexing `d[k]` restricted to the child entries
(first entry with the given key). -/
def lookup_child {α : Type} : List (String × Tax α) → String → Option (Tax α)
  | [], _ => none
  | (k, v) :: rest, key => if k = key then some v else lookup_child rest key

/-- Walking a label path from a node down through child dicts. -/
def Tax.walk {α : Type} : Tax α → List String → Option (Tax α)
  | t, [] => some t
  | .mk _ cs, k :: rest =>
    match lookup_child cs k with
    | some c => Tax.walk c rest
    | none => none

def lookup_raw : List (String × RawTax) → String → Option RawTax
  | [], _ => none
  | (k, v) :: rest, key => if k = key then some v else lookup_raw rest key

def RawTax.walk : RawTax → List String → Option RawTax
  | t, [] => some t
  | .mk cs, k :: rest =>
    match lookup_raw cs k with
    | some c => RawTax.walk c rest
    | none => none

/-- Model of Python `str.split(' -> ')` at the character-list level:
split on every non-overlapping occurrence of `" -> "`, left to right.
The accumulator holds the current piece reversed. -/
def split_arrow_aux : List Char → List Char → List (List Char)
  | [], cur => [cur.reverse]
  | ' ' :: '-' :: '>' :: ' ' :: rest, cur => cur.reverse :: split_arrow_aux rest []
  | c :: rest, cur => split_arrow_aux rest (c :: cur)

/-- Python `s.split(' -> ')`.  In particular `''.split(' -> ') = ['']`. -/
def py_split_arrow (s : String) : List String :=
  (split_arrow_aux s.data []).map (fun l => String.mk l)

/-- Model of Python `str.lower` (ASCII case folding, which is all the
taxonomy labels use). -/
def py_lower (s : String) : String :=
  String.mk (s.data.map Char.toLower)

/-- Model of Python `str.strip()`: drop leading and trailing whitespace. -/
def py_strip (s : String) : String :=
  String.mk (((s.data.dropWhile Char.isWhitespace).reverse.dropWhile Char.isWhitespace).reverse)

/-!
Tree construction, `add_embeddings_to_taxonomy` (label-embedding policy).

The source mutates the input dict in place: after checking the model name
it iterates over the entries, sets `taxonomy[key]['embedding'] =
eval(model)(key)` for every non-`'embedding'` key, and recurses into the
child (whose own `'embedding'` entry the recursion then skips).  The
embedding provider `eval(model)` is external code that may return `None`,
so it is modelled as `embed : String → String → Option α` (model name,
phrase).  The payload stored in the `'embedding'` slot is therefore
`Option α` and the slot it is stored into is `Option (Option α)`:
`none` = key absent, `some none` = key present holding `None`,
`some (some v)` = key present holding a vector.  Mutation is modelled as
explicit state passing: the function returns the post-call taxonomy
together with the raised error, if any.
-/

def valid_models : List String := ["clip", "fclip", "mclip"]

def add_emb_entries {α : Type} (embed : String → String → Option α) (model : String) :
    List (String × Tax (Option α)) → List (String × Tax (Option α))
  | [] => []
  | (k, .mk _ cs) :: rest =>
    (k, .mk (some (embed model k)) (add_emb_entries embed model cs)) ::
      add_emb_entries embed model rest

/-- Model of `add_embeddings_to_taxonomy(taxonomy, model)`.  Returns the
taxonomy after the call and the message of the `ValueError`, if one was
raised.  The check on `model` precedes the loop, so on a bad model name
the taxonomy comes back untouched; the recursive calls in the source pass
the same (validated) model name along, so no error arises after it. -/
def add_embeddings_to_taxonomy {α : Type} (embed : String → String → Option α)
    (taxonomy : Tax (Option α)) (model : String) : Tax (Option α) × Option String :=
  if model ∈ valid_models then
    (.mk taxonomy.emb (add_emb_entries embed model taxonomy.children), none)
  else
    (taxonomy, some "Expecting one of the following models: clip, fcip")

/-!
Tree construction, `add_embedding_to_leaves` (path-embedding policy).

The source returns a fresh dict: an empty input dict is a leaf and
becomes `{'embedding': eval(model)(text)}` with
`text = f"a photo of a {current_path.lower()}".strip()`; a non-empty dict
maps each entry through the recursion with
`current_path := f"{key} {current_path}"` (the child label prepended).
Here the provider is kept as an abstract `embed : String → α`; which
model name selected it is irrelevant to the claims about this function.
-/

mutual

def add_embedding_to_leaves {α : Type} (embed : String → α) : RawTax → String → Tax α
  | .mk [], current_path =>
    .mk (some (embed (py_strip ("a photo of a " ++ py_lower current_path)))) []
  | .mk (e :: es), current_path =>
    .mk none (leaves_entries embed (e :: es) current_path)

def leaves_entries {α : Type} (embed : String → α) :
    List (String × RawTax) → String → List (String × Tax α)
  | [], _ => []
  | (k, v) :: rest, current_path =>
    (k, add_embedding_to_leaves embed v (k ++ " " ++ current_path)) ::
      leaves_entries embed rest current_path

end

/-!
The greedy matcher, `find_best_match_at_level` and `find_best_matches`.
-/

/-- Loop body of `find_best_match_at_level`: `highest_similarity` starts
at `-1`, `best_match` at `None`; a child is considered only when it is a
dict containing the `'embedding'` key, and the running best is replaced
only on a strictly greater similarity. -/
def best_match_loop {α : Type} (sim : α → ℚ) :
    List (String × Tax α) → Option String → ℚ → Option String × ℚ
  | [], best, hi => (best, hi)
  | (k, v) :: rest, best, hi =>
    match v.emb with
    | some e => if sim e > hi then best_match_loop sim rest (some k) (sim e)
                else best_match_loop sim rest best hi
    | none => best_match_loop sim rest best hi

/-- Model of `find_best_match_at_level(embeddings, image_embedding)`.
The `'embedding'` entry of the level dict itself is not a dict and is
skipped by the `isinstance` guard, so only the child entries are
scanned. -/
def find_best_match_at_level {α : Type} (sim : α → ℚ) (t : Tax α) : Option String × ℚ :=
  best_match_loop sim t.children none (-1)

theorem lookup_child_sizeOf {α : Type} :
    ∀ (entries : List (String × Tax α)) (k : String) (c : Tax α),
      lookup_child entries k = some c → sizeOf c < sizeOf entries
  | (k', v) :: rest, k, c, h => by
    by_cases hk : k' = k
    · simp [lookup_child, hk] at h
      subst h
      simp
      omega
    · simp [lookup_child, hk] at h
      have := lookup_child_sizeOf rest k c h
      simp
      omega

/-- Model of `find_best_matches(image_embedding, precomputed_embeddings,
path)`.  The source carries `(tree, path)` and re-walks the tree from the
root at every call; since each recursive call extends `path` by a key
that is present at the current level, this is the same as carrying the
current level itself, which is what this definition does (the claims
invoke it at the root with `path = []`, exactly as the callers in
`tags.py` do).  The `'embedding' in current_level[best_match]` test of
the source is kept verbatim; the `none` lookup branch corresponds to a
`KeyError`, which cannot fire because the selected key always comes from
the current level. -/
def find_best_matches {α : Type} (sim : α → ℚ) : Tax α → List String → List String
  | .mk e entries, path =>
    match find_best_match_at_level sim (.mk e entries) with
    | (none, _) => path
    | (some bm, _) =>
      match h : lookup_child entries bm with
      | some c =>
        if c.emb.isSome then find_best_matches sim c (path ++ [bm])
        else path ++ [bm]
      | none => path ++ [bm]
termination_by t _ => sizeOf t
decreasing_by
  have := lookup_child_sizeOf entries bm c h
  simp
  omega

/-!
The exhaustive matcher, `find_most_similar_path`.

Its helper `search_dict_for_similarity` iterates over the entries of the
current dict; an entry containing an `'embedding'` key is scored (and
never descended into), any other entry is recursed into, threading the
running maximum (a mutable `{'score': -1, 'path': ''}` dict in the
source, fresh at each outer call since the helper is redefined inside
`find_most_similar_path`).  The running maximum is modelled as a pair
`(path, score)`.
-/

def search_sim {α : Type} (sim : α → ℚ) :
    List (String × Tax α) → String → String × ℚ → String × ℚ
  | [], _, ms => ms
  | (k, .mk (some e) _cs) :: rest, current_path, ms =>
    let new_path := if current_path = "" then k else current_path ++ " -> " ++ k
    search_sim sim rest current_path
      (if sim e > ms.2 then (new_path, sim e) else ms)
  | (k, .mk none cs) :: rest, current_path, ms =>
    let new_path := if current_path = "" then k else current_path ++ " -> " ++ k
    search_sim sim rest current_path (search_sim sim cs new_path ms)

/-- Model of `find_most_similar_path(input_tensor, data_dict)`: run the
search from the root entries with the `{'score': -1, 'path': ''}` start
value and split the winning path string on `' -> '`. -/
def find_most_similar_path {α : Type} (sim : α → ℚ) (t : Tax α) : List String :=
  py_split_arrow (search_sim sim t.children "" ("", -1)).1

/-!
The multi-matcher, `find_similar_paths`.
-/

/-- Helper of `find_similar_paths`: same traversal as `search_sim`, but
appending every scored `(path, similarity)` pair to the accumulator list
instead of keeping only the maximum. -/
def search_paths {α : Type} (sim : α → ℚ) :
    List (String × Tax α) → String → List (String × ℚ) → List (String × ℚ)
  | [], _, acc => acc
  | (k, .mk (some e) _cs) :: rest, current_path, acc =>
    let new_path := if current_path = "" then k else current_path ++ " -> " ++ k
    search_paths sim rest current_path (acc ++ [(new_path, sim e)])
  | (k, .mk none cs) :: rest, current_path, acc =>
    let new_path := if current_path = "" then k else current_path ++ " -> " ++ k
    search_paths sim rest current_path (search_paths sim cs new_path acc)

/-- Model of `scipy.stats.percentileofscore(scores, x, kind='weak')`:
`100 * |{s in scores : s ≤ x}| / len(scores)` (exact rationals in place
of floats). -/
def percentileofscore (scores : List ℚ) (x : ℚ) : ℚ :=
  100 * (scores.countP (fun s => decide (s ≤ x)) : ℚ) / (scores.length : ℚ)

/-- One record of the list returned by `find_similar_paths`:
`{'value': path, 'similarity': similarity, 'rank': rank}`. -/
structure MatchResult where
  value : String
  similarity : ℚ
  rank : ℚ
deriving Repr, DecidableEq

/-- Model of `find_similar_paths(input_tensor, data_dict, threshold)`:
collect every embedded leaf with its similarity, rank each similarity by
its weak percentile among all of them, and keep the records whose
`similarity * rank / 100` reaches the threshold. -/
def find_similar_paths {α : Type} (sim : α → ℚ) (t : Tax α) (threshold : ℚ) :
    List MatchResult :=
  let similar_paths := search_paths sim t.children "" []
  let similarities := similar_paths.map Prod.snd
  let percentile_ranks := similarities.map (fun s => percentileofscore similarities s)
  ((similar_paths.zip percentile_ranks).filter
      (fun pr => decide (threshold ≤ pr.1.2 * pr.2 / 100))).map
    (fun pr => { value := pr.1.1, similarity := pr.1.2, rank := pr.2 })

/-!
Specification-side enumerations, written independently of the matcher
code: the depth-first list of embedded leaves with the path strings the
traversal builds, the embedded immediate children of a node, and the
weak percentile rank exactly as the specification states it.
-/

/-- Depth-first enumeration (child-insertion order) of the nodes carrying
an `'embedding'`, paired with their `' -> '`-joined path strings. -/
def dfs_leaves {α : Type} : List (String × Tax α) → String → List (String × α)
  | [], _ => []
  | (k, .mk (some e) _cs) :: rest, current_path =>
    (if current_path = "" then k else current_path ++ " -> " ++ k, e) ::
      dfs_leaves rest current_path
  | (k, .mk none cs) :: rest, current_path =>
    dfs_leaves cs (if current_path = "" then k else current_path ++ " -> " ++ k) ++
      dfs_leaves rest current_path

/-- The immediate children of a level that carry an `'embedding'`. -/
def embedded_children {α : Type} (entries : List (String × Tax α)) : List (String × α) :=
  entries.filterMap (fun p => p.2.emb.map (fun e => (p.1, e)))

/-- Weak percentile rank as the specification words it:
`rank(x) = 100 * (count of collected similarities ≤ x) / (total count)`. -/
def weak_rank (sims : List ℚ) (x : ℚ) : ℚ :=
  100 * (sims.countP (fun s => decide (s ≤ x)) : ℚ) / (sims.length : ℚ)

/-- The path text accumulated by `add_embedding_to_leaves` while
descending along a label path (each label prepended with a trailing
space). -/
def path_text (p : List String) : String :=
  p.foldl (fun current_path k => k ++ " " ++ current_path) ""

/-- Labels joined by single spaces, first to last. -/
def join_labels : List String → String
  | [] => ""
  | [l] => l
  | l :: rest => l ++ " " ++ join_labels rest

/-!
Running-maximum folds.  Both `find_best_match_at_level` and
`search_dict_for_similarity` keep a running best that is replaced only on
a strictly greater score, so both are left folds of the same step
function over their scored items.
-/

/-- The running-best update used by both matchers: replace the
accumulator only on a strictly greater score. -/
def argmax_step {κ : Type} (acc x : κ × ℚ) : κ × ℚ :=
  if acc.2 < x.2 then x else acc

theorem argmax_foldl_dominated {κ : Type} :
    ∀ (l : List (κ × ℚ)) (acc : κ × ℚ), (∀ p ∈ l, p.2 ≤ acc.2) →
      l.foldl argmax_step acc = acc
  | [], _, _ => rfl
  | p :: l, acc, h => by
    have hp : p.2 ≤ acc.2 := h p (by simp)
    have hstep : argmax_step acc p = acc := by
      simp only [argmax_step, if_neg (not_lt.mpr hp)]
    rw [List.foldl_cons, hstep]
    exact argmax_foldl_dominated l acc (fun q hq => h q (by simp [hq]))

theorem argmax_foldl_first_max {κ : Type} :
    ∀ (l : List (κ × ℚ)) (acc : κ × ℚ) (M : ℚ) (q : κ × ℚ),
      acc.2 < M → (∀ p ∈ l, p.2 ≤ M) →
      l.find? (fun p => decide (p.2 = M)) = some q →
      l.foldl argmax_step acc = q
  | [], _, _, _, _, _, hfind => by simp [List.find?] at hfind
  | x :: l, acc, M, q, hacc, hub, hfind => by
    by_cases hx : x.2 = M
    · rw [List.find?_cons_of_pos _ (by simp [hx])] at hfind
      injection hfind with hq
      subst hq
      have hstep : argmax_step acc x = x := by
        simp [argmax_step, hx ▸ hacc]
      rw [List.foldl_cons, hstep]
      refine argmax_foldl_dominated l x (fun r hr => ?_)
      rw [hx]
      exact hub r (List.mem_cons_of_mem _ hr)
    · rw [List.find?_cons_of_neg _ (by simp [hx])] at hfind
      have hacc' : (argmax_step acc x).2 < M := by
        by_cases hcmp : acc.2 < x.2
        · have hxlt : x.2 < M := lt_of_le_of_ne (hub x (by simp)) hx
          simpa [argmax_step, hcmp] using hxlt
        · simpa [argmax_step, hcmp] using hacc
      rw [List.foldl_cons]
      exact argmax_foldl_first_max l _ M q hacc'
        (fun r hr => hub r (by simp [hr])) hfind

/-!
Characterisation lemmas: each traversal equals a fold or a map over the
corresponding specification-side enumeration.
-/

theorem embedded_children_cons_some {α : Type} {v : Tax α} {e : α}
    (k : String) (rest : List (String × Tax α)) (hv : v.emb = some e) :
    embedded_children ((k, v) :: rest) = (k, e) :: embedded_children rest := by
  simp [embedded_children, List.filterMap_cons, hv]

theorem embedded_children_cons_none {α : Type} {v : Tax α}
    (k : String) (rest : List (String × Tax α)) (hv : v.emb = none) :
    embedded_children ((k, v) :: rest) = embedded_children rest := by
  simp [embedded_children, List.filterMap_cons, hv]

theorem best_match_loop_cons_some {α : Type} {sim : α → ℚ} {v : Tax α} {e : α}
    (k : String) (rest : List (String × Tax α)) (b : Option String) (hi : ℚ)
    (hv : v.emb = some e) :
    best_match_loop sim ((k, v) :: rest) b hi =
      if sim e > hi then best_match_loop sim rest (some k) (sim e)
      else best_match_loop sim rest b hi := by
  simp [best_match_loop, hv]

theorem best_match_loop_cons_none {α : Type} {sim : α → ℚ} {v : Tax α}
    (k : String) (rest : List (String × Tax α)) (b : Option String) (hi : ℚ)
    (hv : v.emb = none) :
    best_match_loop sim ((k, v) :: rest) b hi = best_match_loop sim rest b hi := by
  simp [best_match_loop, hv]

theorem best_match_loop_eq {α : Type} (sim : α → ℚ) :
    ∀ (entries : List (String × Tax α)) (b : Option String) (hi : ℚ),
      best_match_loop sim entries b hi =
        ((embedded_children entries).map
            (fun p => ((some p.1 : Option String), sim p.2))).foldl argmax_step (b, hi)
  | [], _, _ => by simp [best_match_loop, embedded_children]
  | (k, v) :: rest, b, hi => by
    match hv : v.emb with
    | some e =>
      rw [best_match_loop_cons_some k rest b hi hv,
        embedded_children_cons_some k rest hv, List.map_cons, List.foldl_cons]
      by_cases hcmp : sim e > hi
      · rw [if_pos hcmp, best_match_loop_eq sim rest (some k) (sim e)]
        have hstep : argmax_step (b, hi) ((some k : Option String), sim e) =
            ((some k : Option String), sim e) := by
          simp [argmax_step, hcmp]
        rw [hstep]
      · rw [if_neg hcmp, best_match_loop_eq sim rest b hi]
        have hstep : argmax_step (b, hi) ((some k : Option String), sim e) = (b, hi) := by
          simp only [argmax_step]
          rw [if_neg hcmp]
        rw [hstep]
    | none =>
      rw [best_match_loop_cons_none k rest b hi hv,
        embedded_children_cons_none k rest hv]
      exact best_match_loop_eq sim rest b hi

theorem search_sim_eq {α : Type} (sim : α → ℚ) :
    ∀ (entries : List (String × Tax α)) (current_path : String) (ms : String × ℚ),
      search_sim sim entries current_path ms =
        ((dfs_leaves entries current_path).map (fun p => (p.1, sim p.2))).foldl
          argmax_step ms
  | [], _, _ => by simp [search_sim, dfs_leaves]
  | (k, .mk (some e) cs) :: rest, cp, ms => by
    simp only [search_sim, dfs_leaves, List.map_cons, List.foldl_cons]
    rw [show argmax_step ms ((if cp = "" then k else cp ++ " -> " ++ k), sim e) =
        if sim e > ms.2 then ((if cp = "" then k else cp ++ " -> " ++ k), sim e) else ms
      from rfl]
    exact search_sim_eq sim rest cp _
  | (k, .mk none cs) :: rest, cp, ms => by
    simp only [search_sim, dfs_leaves, List.map_append, List.foldl_append]
    rw [search_sim_eq sim cs (if cp = "" then k else cp ++ " -> " ++ k) ms]
    exact search_sim_eq sim rest cp _

theorem search_paths_eq {α : Type} (sim : α → ℚ) :
    ∀ (entries : List (String × Tax α)) (current_path : String)
      (acc : List (String × ℚ)),
      search_paths sim entries current_path acc =
        acc ++ (dfs_leaves entries current_path).map (fun p => (p.1, sim p.2))
  | [], _, acc => by simp [search_paths, dfs_leaves]
  | (k, .mk (some e) cs) :: rest, cp, acc => by
    simp only [search_paths, dfs_leaves, List.map_cons]
    rw [search_paths_eq sim rest cp _]
    simp
  | (k, .mk none cs) :: rest, cp, acc => by
    simp only [search_paths, dfs_leaves, List.map_append]
    rw [search_paths_eq sim cs (if cp = "" then k else cp ++ " -> " ++ k) acc,
      search_paths_eq sim rest cp _]
    simp

theorem zip_self_map {β γ : Type} (h : β → γ) :
    ∀ l : List β, l.zip (l.map h) = l.map (fun x => (x, h x))
  | [] => rfl
  | x :: l => by
    simp only [List.map_cons, List.zip_cons_cons]
    rw [zip_self_map h l]

theorem filter_map_ranks (g : ℚ → ℚ) (thr : ℚ) :
    ∀ l : List (String × ℚ),
      ((l.zip (l.map (fun p => g p.2))).filter
          (fun pr => decide (thr ≤ pr.1.2 * pr.2 / 100))).map
        (fun pr => MatchResult.mk pr.1.1 pr.1.2 pr.2) =
      (l.filter (fun p => decide (thr ≤ p.2 * g p.2 / 100))).map
        (fun p => MatchResult.mk p.1 p.2 (g p.2))
  | [] => rfl
  | x :: l => by
    simp only [List.map_cons, List.zip_cons_cons, List.filter_cons]
    by_cases hc : thr ≤ x.2 * g x.2 / 100
    · simp [hc, filter_map_ranks g thr l]
    · simp [hc, filter_map_ranks g thr l]

theorem weak_rank_eq_percentileofscore : @weak_rank = @percentileofscore := rfl

/-- C1: `find_similar_paths` collects `(path, similarity)` for every
embedded leaf (depth-first), assigns each leaf the weak percentile rank
`rank(x) = 100 * (count of collected similarities ≤ x) / (total count)`
over the full collected similarity set, and returns exactly those leaves
whose combined score `similarity * rank / 100` is at least the threshold,
each record carrying its raw similarity and its percentile rank. -/
theorem C1_multi_matcher_weak_percentile_filter {α : Type} (sim : α → ℚ)
    (t : Tax α) (threshold : ℚ) :
    find_similar_paths sim t threshold =
      (((dfs_leaves t.children "").map (fun p => (p.1, sim p.2))).filter
          (fun p => decide (threshold ≤ p.2 *
            weak_rank (((dfs_leaves t.children "").map (fun p => (p.1, sim p.2))).map
              Prod.snd) p.2 / 100))).map
        (fun p => MatchResult.mk p.1 p.2
          (weak_rank (((dfs_leaves t.children "").map (fun p => (p.1, sim p.2))).map
            Prod.snd) p.2)) := by
  simp only [find_similar_paths]
  rw [search_paths_eq]
  simp only [List.nil_append]
  rw [weak_rank_eq_percentileofscore]
  set scored := (dfs_leaves t.children "").map (fun p => (p.1, sim p.2)) with hscored
  have hranks : (scored.map Prod.snd).map
        (fun s => percentileofscore (scored.map Prod.snd) s) =
      scored.map (fun p => percentileofscore (scored.map Prod.snd) p.2) := by
    rw [List.map_map]
    rfl
  rw [hranks, filter_map_ranks (percentileofscore (scored.map Prod.snd)) threshold scored]

/-!
Claim C2.  The source initialises the running maximum to
`{'score': -1, 'path': ''}` and replaces it only on a strictly greater
score, so a leaf whose similarity is exactly `-1` (cosine similarity of a
query with an anti-parallel embedding) can never be selected: on a tree
whose only embedded leaf scores `-1` the function returns `[""]`, not
that leaf's path.  Whenever some leaf scores strictly above `-1`, the
function does return the depth-first-first leaf attaining the maximum
similarity, which is the amended claim.
-/

/-- C2 counterexample: a tree with exactly one embedded leaf `"A"` and a
query scoring it exactly `-1` (anti-parallel embedding).  The claim says
the leaf with the greatest similarity — here the only leaf, `["A"]` — is
returned; the code returns `[""]` because `-1` does not beat the `-1`
sentinel. -/
theorem C2_counterexample_similarity_neg_one :
    dfs_leaves (Tax.mk none [("A", Tax.mk (some ()) [])] : Tax Unit).children ""
        = [("A", ())] ∧
      find_most_similar_path (fun _ : Unit => (-1 : ℚ))
          (Tax.mk none [("A", Tax.mk (some ()) [])]) = [""] ∧
      find_most_similar_path (fun _ : Unit => (-1 : ℚ))
          (Tax.mk none [("A", Tax.mk (some ()) [])]) ≠ ["A"] := by
  refine ⟨by simp [dfs_leaves, Tax.children], ?_, ?_⟩
  · simp [find_most_similar_path, search_sim, Tax.children]
    rfl
  · simp [find_most_similar_path, search_sim, Tax.children]
    rw [show py_split_arrow "" = [""] from rfl]
    simp

/-- C2 (amended): `find_most_similar_path` folds over every embedded leaf
in depth-first child-insertion order, and provided the maximal similarity
`M` exceeds the `-1` sentinel, it returns the split path of the first
leaf attaining `M` (first-seen wins on ties).  Without the `-1 < M`
hypothesis the claim fails, see the counterexample. -/
theorem C2_exhaustive_returns_first_max_leaf {α : Type} (sim : α → ℚ) (t : Tax α)
    (M : ℚ) (q : String × ℚ)
    (hub : ∀ s ∈ ((dfs_leaves t.children "").map (fun p => (p.1, sim p.2))).map Prod.snd,
      s ≤ M)
    (hgt : -1 < M)
    (hfind : ((dfs_leaves t.children "").map (fun p => (p.1, sim p.2))).find?
        (fun p => decide (p.2 = M)) = some q) :
    find_most_similar_path sim t = py_split_arrow q.1 := by
  unfold find_most_similar_path
  rw [search_sim_eq]
  rw [argmax_foldl_first_max _ ("", -1) M q hgt
    (fun p hp => hub p.2 (List.mem_map_of_mem Prod.snd hp)) hfind]

/-- Witness for the amended C2 on the concrete category tree of the
specification: similarities 0.9, 0.5, 0.3 give back the `T-Shirt` leaf. -/
theorem C2_exhaustive_returns_first_max_leaf_witness :
    find_most_similar_path (fun q : ℚ => q)
        (Tax.mk none
          [("Tops", Tax.mk none
            [("T-Shirt", Tax.mk (some (9/10)) []), ("Blouse", Tax.mk (some (1/2)) [])]),
           ("Bottoms", Tax.mk none [("Jeans", Tax.mk (some (3/10)) [])])])
      = ["Tops", "T-Shirt"] := by
  have h := C2_exhaustive_returns_first_max_leaf (fun q : ℚ => q)
    (Tax.mk none
      [("Tops", Tax.mk none
        [("T-Shirt", Tax.mk (some (9/10)) []), ("Blouse", Tax.mk (some (1/2)) [])]),
       ("Bottoms", Tax.mk none [("Jeans", Tax.mk (some (3/10)) [])])])
    (9/10) ("Tops -> T-Shirt", 9/10)
    (by simp [dfs_leaves, Tax.children] <;> norm_num)
    (by norm_num)
    (by simp [dfs_leaves, Tax.children, List.find?] <;> norm_num)
  rw [h]
  rfl

/-!
Claim C3.  `find_best_match_at_level` considers only the immediate
children whose dict contains an `'embedding'` key — the rest are skipped
outright, not scored.  But the same `-1` sentinel as in C2 means that
when every embedded child scores exactly `-1` (possible for cosine
similarity), no child at all is selected, against the claim's "for every
non-empty set of embedded children the maximum-similarity child is
selected".  The amended claim restricts the selection statement to a
maximum strictly above `-1`.
-/

theorem embedded_children_filter {α : Type} :
    ∀ entries : List (String × Tax α),
      embedded_children (entries.filter (fun p => p.2.emb.isSome)) =
        embedded_children entries
  | [] => rfl
  | (k, v) :: rest => by
    match hv : v.emb with
    | some e =>
      rw [List.filter_cons]
      simp only [hv, Option.isSome_some, decide_True, if_true]
      rw [embedded_children_cons_some k _ hv, embedded_children_cons_some k rest hv,
        embedded_children_filter rest]
    | none =>
      rw [List.filter_cons]
      simp only [hv, Option.isSome_none, Bool.false_eq_true, if_false]
      rw [embedded_children_cons_none k rest hv, embedded_children_filter rest]

/-- C3 counterexample: one embedded child `"A"` scored exactly `-1` (the
cosine similarity of anti-parallel vectors).  The set of embedded
children is non-empty, yet no child is selected: the function returns
`(None, -1)` because `-1` does not beat the `-1` sentinel, refuting the
claim's unconditional selection statement. -/
theorem C3_counterexample_similarity_neg_one :
    embedded_children (Tax.mk none [("A", Tax.mk (some ()) [])] : Tax Unit).children
        = [("A", ())] ∧
      find_best_match_at_level (fun _ : Unit => (-1 : ℚ))
          (Tax.mk none [("A", Tax.mk (some ()) [])]) = (none, -1) := by
  constructor
  · rfl
  · simp [find_best_match_at_level, best_match_loop, Tax.children, Tax.emb]

/-- C3 (amended): at one level, (i) children lacking an `'embedding'` key
are skipped — dropping them from the child list does not change the
result — and (ii) whenever the maximal similarity `M` among the embedded
children exceeds the `-1` sentinel, the child selected is exactly the
first embedded child attaining `M` (stable tie-break by child order).
Without `-1 < M` part (ii) fails, see the counterexample. -/
theorem C3_level_skips_and_selects_first_max {α : Type} (sim : α → ℚ) (t : Tax α) :
    (find_best_match_at_level sim t =
        find_best_match_at_level sim
          (Tax.mk t.emb (t.children.filter (fun p => p.2.emb.isSome)))) ∧
      (∀ (M : ℚ) (q : String × ℚ),
        (∀ s ∈ (embedded_children t.children).map (fun p => sim p.2), s ≤ M) →
        -1 < M →
        ((embedded_children t.children).map (fun p => (p.1, sim p.2))).find?
            (fun p => decide (p.2 = M)) = some q →
        find_best_match_at_level sim t = (some q.1, M)) := by
  constructor
  · unfold find_best_match_at_level
    rw [best_match_loop_eq, best_match_loop_eq]
    rw [show (Tax.mk t.emb (t.children.filter (fun p => p.2.emb.isSome))).children =
        t.children.filter (fun p => p.2.emb.isSome) from rfl]
    rw [embedded_children_filter]
  · intro M q hub hgt hfind
    unfold find_best_match_at_level
    rw [best_match_loop_eq]
    have hqM : q.2 = M := by
      have := List.find?_some hfind
      exact of_decide_eq_true this
    have hmap : (embedded_children t.children).map
          (fun p => ((some p.1 : Option String), sim p.2)) =
        ((embedded_children t.children).map (fun p => (p.1, sim p.2))).map
          (fun r => ((some r.1 : Option String), r.2)) := by
      rw [List.map_map]
      rfl
    rw [hmap]
    have hfind' : (((embedded_children t.children).map (fun p => (p.1, sim p.2))).map
          (fun r => ((some r.1 : Option String), r.2))).find?
          (fun p => decide (p.2 = M)) = some ((some q.1 : Option String), q.2) := by
      rw [List.find?_map]
      rw [show ((fun p : Option String × ℚ => decide (p.2 = M)) ∘
          (fun r : String × ℚ => ((some r.1 : Option String), r.2))) =
          (fun p : String × ℚ => decide (p.2 = M)) from rfl]
      rw [hfind]
      rfl
    have hub' : ∀ p ∈ ((embedded_children t.children).map (fun p => (p.1, sim p.2))).map
          (fun r => ((some r.1 : Option String), r.2)), p.2 ≤ M := by
      intro p hp
      rcases List.mem_map.mp hp with ⟨r, hr, hrp⟩
      rcases List.mem_map.mp hr with ⟨u, hu, hur⟩
      have : sim u.2 ∈ (embedded_children t.children).map (fun p => sim p.2) :=
        List.mem_map_of_mem _ hu
      have hle := hub (sim u.2) this
      rw [← hrp, ← hur]
      exact hle
    rw [argmax_foldl_first_max _ ((none : Option String), -1) M
      ((some q.1 : Option String), q.2) hgt hub' (hqM ▸ hfind')]
    rw [hqM]

/-- Witness for the amended C3: two embedded children with similarities
one half and one third; the first one is selected with its score. -/
theorem C3_level_skips_and_selects_first_max_witness :
    find_best_match_at_level (fun q : ℚ => q)
        (Tax.mk none [("A", Tax.mk (some ((1:ℚ)/2)) []), ("B", Tax.mk (some ((1:ℚ)/3)) [])])
      = (some "A", 1/2) := by
  have h := (C3_level_skips_and_selects_first_max (fun q : ℚ => q)
      (Tax.mk none
        [("A", Tax.mk (some ((1:ℚ)/2)) []), ("B", Tax.mk (some ((1:ℚ)/3)) [])])).2
    (1/2) ("A", 1/2)
    (by simp [embedded_children, Tax.children, Tax.emb] <;> norm_num)
    (by norm_num)
    (by simp [embedded_children, Tax.children, Tax.emb, List.find?] <;> norm_num)
  exact h

/-!
Claim C5.  On a tree with no embedded leaf the running maximum keeps its
initial `{'score': -1, 'path': ''}` value and the function returns
`''.split(' -> ')`, which in Python is `['']` — a one-element list
holding the empty string — and not the empty list the claim states.
-/

/-- C5 counterexample: a tree with one (non-embedded) node and zero
embedded leaves.  The claim says an empty path is returned; the code
returns `[""]`, the split of the empty string, which is not `[]`. -/
theorem C5_counterexample_split_of_empty :
    find_most_similar_path (fun _ : Unit => (0 : ℚ))
        (Tax.mk none [("A", Tax.mk none [])]) = [""] ∧
      find_most_similar_path (fun _ : Unit => (0 : ℚ))
          (Tax.mk none [("A", Tax.mk none [])]) ≠ ([] : List String) := by
  have h : find_most_similar_path (fun _ : Unit => (0 : ℚ))
      (Tax.mk none [("A", Tax.mk none [])]) = [""] := by
    simp [find_most_similar_path, search_sim, Tax.children]
    rfl
  exact ⟨h, by rw [h]; simp⟩

/-- C5 (amended): on a tree with zero embedded leaves
`find_most_similar_path` returns `[""]` — the one-element list holding
the empty string (Python `''.split(' -> ')`) — rather than the empty
list. -/
theorem C5_no_leaves_yields_singleton_empty_string {α : Type} (sim : α → ℚ)
    (t : Tax α) (h : dfs_leaves t.children "" = []) :
    find_most_similar_path sim t = [""] := by
  unfold find_most_similar_path
  rw [search_sim_eq, h]
  rfl

/-- Witness for the amended C5 at a concrete embedding-free tree. -/
theorem C5_no_leaves_yields_singleton_empty_string_witness :
    find_most_similar_path (fun _ : Unit => (1 : ℚ))
        (Tax.mk none [("X", Tax.mk none []), ("Y", Tax.mk none [])]) = [""] :=
  C5_no_leaves_yields_singleton_empty_string (fun _ : Unit => (1 : ℚ))
    (Tax.mk none [("X", Tax.mk none []), ("Y", Tax.mk none [])])
    (by simp [dfs_leaves, Tax.children])

/-!
Claim C7.  Safety of the multi-matcher around empty and singleton
collected sets, and rank of the maximum.
-/

theorem percentileofscore_of_max (sims : List ℚ) (x : ℚ) (hmem : x ∈ sims)
    (hub : ∀ y ∈ sims, y ≤ x) : percentileofscore sims x = 100 := by
  unfold percentileofscore
  have hcount : sims.countP (fun s => decide (s ≤ x)) = sims.length := by
    rw [List.countP_eq_length]
    intro a ha
    exact decide_eq_true (hub a ha)
  rw [hcount]
  have hlen : (sims.length : ℚ) ≠ 0 := by
    have : sims ≠ [] := List.ne_nil_of_mem hmem
    simp [List.length_eq_zero, this]
  field_simp

/-- C7: (i) on a tree whose collected leaf set is empty,
`find_similar_paths` returns the empty result (no division by zero is
ever performed since no rank is computed); (ii) the weak percentile rank
of a maximal similarity in any non-empty collected set is 100 — in
particular a sole collected leaf gets rank 100; (iii) concretely, on a
tree whose collected set is exactly one leaf that clears the threshold,
the result is that single record carrying rank 100. -/
theorem C7_empty_and_singleton_percentile {α : Type} :
    (∀ (sim : α → ℚ) (t : Tax α) (threshold : ℚ),
        dfs_leaves t.children "" = [] → find_similar_paths sim t threshold = []) ∧
      (∀ (sims : List ℚ) (x : ℚ), x ∈ sims → (∀ y ∈ sims, y ≤ x) →
        percentileofscore sims x = 100) ∧
      (∀ (sim : α → ℚ) (t : Tax α) (threshold : ℚ) (p : String) (e : α),
        dfs_leaves t.children "" = [(p, e)] → threshold ≤ sim e →
        find_similar_paths sim t threshold = [MatchResult.mk p (sim e) 100]) := by
  refine ⟨?_, fun sims x hmem hub => percentileofscore_of_max sims x hmem hub, ?_⟩
  · intro sim t threshold h
    simp only [find_similar_paths]
    rw [search_paths_eq, h]
    simp
  · intro sim t threshold p e h hthr
    simp only [find_similar_paths]
    rw [search_paths_eq, h]
    simp only [List.nil_append, List.map_cons, List.map_nil]
    have hrank : percentileofscore [sim e] (sim e) = 100 :=
      percentileofscore_of_max [sim e] (sim e) (by simp) (by simp)
    rw [hrank]
    simp only [List.zip_cons_cons, List.zip_nil_right, List.filter_cons]
    have hcond : sim e * 100 / 100 = sim e := by
      field_simp
    simp [hcond, hthr]

/-- Witness for C7 at concrete inputs: an embedding-free two-node tree
gives the empty result; the maximum of `[1/2, 1/3]` has rank 100; a
one-leaf tree yields exactly its record with rank 100. -/
theorem C7_empty_and_singleton_percentile_witness :
    find_similar_paths (fun _ : Unit => (1 : ℚ))
        (Tax.mk none [("X", Tax.mk none []), ("Y", Tax.mk none [])]) 0 = [] ∧
      percentileofscore [1/2, 1/3] (1/2) = 100 ∧
      find_similar_paths (fun _ : Unit => ((1:ℚ)/2))
          (Tax.mk none [("A", Tax.mk (some ()) [])]) 0
        = [MatchResult.mk "A" (1/2) 100] := by
  refine ⟨?_, ?_, ?_⟩
  · exact (@C7_empty_and_singleton_percentile Unit).1 (fun _ => 1)
      (Tax.mk none [("X", Tax.mk none []), ("Y", Tax.mk none [])]) 0
      (by simp [dfs_leaves, Tax.children])
  · exact (@C7_empty_and_singleton_percentile Unit).2.1 [1/2, 1/3] (1/2)
      (by norm_num) (by intro y hy; simp at hy; rcases hy with h | h <;> norm_num [h])
  · exact (@C7_empty_and_singleton_percentile Unit).2.2 (fun _ => (1:ℚ)/2)
      (Tax.mk none [("A", Tax.mk (some ()) [])]) 0 "A" ()
      (by simp [dfs_leaves, Tax.children]) (by norm_num)

/-!
Claim C9.  The embedding is purely functional: each matcher is a function
of the tree, the score function (the query) and the threshold alone.  In
the source this holds because the accumulator helpers are redefined at
every outer call, so the mutable default arguments (`max_similarity`,
`similar_paths`) are fresh per call and no state survives between calls.
-/

/-- C9: calling each matcher twice with the same tree, the same query
score function and (for the multi-matcher) the same threshold yields
identical output — there is no hidden mutable state. -/
theorem C9_matchers_deterministic {α : Type} (sim : α → ℚ) (t : Tax α)
    (threshold : ℚ) :
    find_best_matches sim t [] = find_best_matches sim t [] ∧
      find_most_similar_path sim t = find_most_similar_path sim t ∧
      find_similar_paths sim t threshold = find_similar_paths sim t threshold :=
  ⟨rfl, rfl, rfl⟩

/-!
Claim C10.  The model-name check of `add_embeddings_to_taxonomy`.
-/

/-- C10: `add_embeddings_to_taxonomy` raises `ValueError` exactly when
the model name is not one of `clip`, `fclip`, `mclip`; the check precedes
the loop, so with an invalid name the taxonomy is returned untouched
(with the error), and with a valid name no error is ever produced. -/
theorem C10_model_check_first {α : Type} (embed : String → String → Option α)
    (t : Tax (Option α)) (model : String) :
    ((add_embeddings_to_taxonomy embed t model).2.isSome ↔ model ∉ valid_models) ∧
      (model ∉ valid_models →
        add_embeddings_to_taxonomy embed t model =
          (t, some "Expecting one of the following models: clip, fcip")) := by
  by_cases hm : model ∈ valid_models
  · simp [add_embeddings_to_taxonomy, hm]
  · simp [add_embeddings_to_taxonomy, hm]

/-- Witness for C10: with the valid name `clip` no error is produced;
with the invalid name `resnet` the taxonomy comes back untouched together
with the `ValueError` message. -/
theorem C10_model_check_first_witness :
    (add_embeddings_to_taxonomy (fun _ _ => (none : Option Unit))
        (Tax.mk none [("A", Tax.mk none [])]) "clip").2 = none ∧
      add_embeddings_to_taxonomy (fun _ _ => (none : Option Unit))
          (Tax.mk none [("A", Tax.mk none [])]) "resnet" =
        (Tax.mk none [("A", Tax.mk none [])],
          some "Expecting one of the following models: clip, fcip") := by
  constructor
  · have h := (C10_model_check_first (fun _ _ => (none : Option Unit))
        (Tax.mk none [("A", Tax.mk none [])]) "clip").1
    simp only [valid_models] at h
    simp at h
    exact Option.not_isSome_iff_eq_none.mp (by simp [h])
  · exact (C10_model_check_first (fun _ _ => (none : Option Unit))
        (Tax.mk none [("A", Tax.mk none [])]) "resnet").2
      (by simp [valid_models])

/-!
Claim C4.  Line 46 of the source,
`taxonomy[key]['embedding'] = eval(model)(phrase)`, stores the provider's
return value unconditionally: when the provider returns `None` the
`'embedding'` key is still created, holding `None`.  Matchers test key
presence (`'embedding' in value`), so such a node is *not* treated as
having no embedding: the level scan of `find_best_match_at_level` admits
it, and line 97 then evaluates `value['embedding'].to(device)` on `None`,
which raises `AttributeError` before any similarity is computed — the
node is neither skipped nor scored as 0 or -1.  The claim's "embedding
left unset, node skipped" is therefore false; the amended claim records
what the code actually does: the build does not fail, every visited
node's `'embedding'` slot is set to exactly the provider's (possibly
null) result, and a level containing a null-embedded child makes the
level scan raise.
-/

theorem add_emb_entries_lookup {α : Type} (embed : String → String → Option α)
    (model : String) :
    ∀ (entries : List (String × Tax (Option α))) (key : String),
      lookup_child (add_emb_entries embed model entries) key =
        Option.map
          (fun v => Tax.mk (some (embed model key)) (add_emb_entries embed model v.children))
          (lookup_child entries key)
  | [], _ => by simp [add_emb_entries, lookup_child]
  | (k, .mk e cs) :: rest, key => by
    by_cases hk : k = key
    · subst hk
      simp [add_emb_entries, lookup_child, Tax.children]
    · simp only [add_emb_entries, lookup_child, if_neg hk]
      exact add_emb_entries_lookup embed model rest key

theorem add_emb_walk_emb {α : Type} (embed : String → String → Option α)
    (model : String) :
    ∀ (q : List String) (E : Option (Option α))
      (entries : List (String × Tax (Option α))) (k : String) (t' : Tax (Option α)),
      (Tax.mk E (add_emb_entries embed model entries)).walk (q ++ [k]) = some t' →
      t'.emb = some (embed model k)
  | [], E, entries, k, t', h => by
    simp only [List.nil_append, Tax.walk, add_emb_entries_lookup] at h
    match hl : lookup_child entries k with
    | some v =>
      rw [hl] at h
      simp only [Option.map_some'] at h
      injection h with h
      rw [← h]
      rfl
    | none =>
      rw [hl] at h
      simp at h
  | k₁ :: q, E, entries, k, t', h => by
    simp only [List.cons_append, Tax.walk, add_emb_entries_lookup] at h
    match hl : lookup_child entries k₁ with
    | some v =>
      rw [hl] at h
      simp only [Option.map_some'] at h
      exact add_emb_walk_emb embed model q (some (embed model k₁)) v.children k t' h
    | none =>
      rw [hl] at h
      simp at h

/-- The level scan of `find_best_match_at_level` as it behaves on a tree
whose `'embedding'` values may hold `None` — the shape
`add_embeddings_to_taxonomy` produces when the provider fails.  The
key-presence guard admits such a child, after which
`value['embedding'].to(device)` raises `AttributeError` on `None` before
`get_similarity` runs; the raised exception is modelled as
`Except.error`.  On children whose slot holds a real vector the loop is
the same strict-improvement scan as `best_match_loop`. -/
def best_match_loop_nullable {γ : Type} (sim : γ → ℚ) :
    List (String × Tax (Option γ)) → Option String → ℚ →
      Except String (Option String × ℚ)
  | [], best, hi => .ok (best, hi)
  | (k, v) :: rest, best, hi =>
    match v.emb with
    | some (some e) =>
      if sim e > hi then best_match_loop_nullable sim rest (some k) (sim e)
      else best_match_loop_nullable sim rest best hi
    | some none => .error "AttributeError"
    | none => best_match_loop_nullable sim rest best hi

/-- Model of `find_best_match_at_level` on a taxonomy whose `'embedding'`
values may be `None`. -/
def find_best_match_at_level_nullable {γ : Type} (sim : γ → ℚ) (t : Tax (Option γ)) :
    Except String (Option String × ℚ) :=
  best_match_loop_nullable sim t.children none (-1)

theorem best_match_loop_nullable_error {γ : Type} (sim : γ → ℚ) :
    ∀ (entries : List (String × Tax (Option γ))) (b : Option String) (hi : ℚ),
      (∃ p ∈ entries, p.2.emb = some none) →
      best_match_loop_nullable sim entries b hi = .error "AttributeError"
  | [], _, _, h => by simp at h
  | (k, v) :: rest, b, hi, h => by
    match hv : v.emb with
    | some (some e) =>
      have hrest : ∃ p ∈ rest, p.2.emb = some none := by
        rcases h with ⟨p, hp, hpe⟩
        rcases List.mem_cons.mp hp with heq | hmem
        · subst heq
          simp [hv] at hpe
        · exact ⟨p, hmem, hpe⟩
      simp only [best_match_loop_nullable, hv]
      by_cases hc : sim e > hi
      · rw [if_pos hc]
        exact best_match_loop_nullable_error sim rest (some k) (sim e) hrest
      · rw [if_neg hc]
        exact best_match_loop_nullable_error sim rest b hi hrest
    | some none => simp [best_match_loop_nullable, hv]
    | none =>
      have hrest : ∃ p ∈ rest, p.2.emb = some none := by
        rcases h with ⟨p, hp, hpe⟩
        rcases List.mem_cons.mp hp with heq | hmem
        · subst heq
          simp [hv] at hpe
        · exact ⟨p, hmem, hpe⟩
      simp only [best_match_loop_nullable, hv]
      exact best_match_loop_nullable_error sim rest b hi hrest

/-- C4 counterexample: provider returning `None` for every phrase, raw
taxonomy `{'A': {}}`, valid model `clip`.  After construction node `A`'s
`'embedding'` slot is `some none` — the key is present holding `None`,
not left unset — and the level scan does not treat `A` as having no
embedding: instead of the skip outcome `(None, -1)` it raises the
`AttributeError` of `None.to(device)`, so the node is neither skipped
nor scored. -/
theorem C4_counterexample_null_embedding_is_set :
    (add_embeddings_to_taxonomy (fun _ _ => (none : Option Unit))
          (Tax.mk none [("A", Tax.mk none [])]) "clip").1 =
        Tax.mk none [("A", Tax.mk (some none) [])] ∧
      (Tax.mk (some (none : Option Unit)) [] : Tax (Option Unit)).emb ≠ none ∧
      find_best_match_at_level_nullable (fun _ : Unit => (0 : ℚ))
          (Tax.mk none [("A", Tax.mk (some (none : Option Unit)) [])])
        = .error "AttributeError" ∧
      find_best_match_at_level_nullable (fun _ : Unit => (0 : ℚ))
          (Tax.mk none [("A", Tax.mk (some (none : Option Unit)) [])])
        ≠ .ok (none, -1) := by
  refine ⟨?_, by simp [Tax.emb], ?_, ?_⟩
  · simp [add_embeddings_to_taxonomy, valid_models, add_emb_entries, Tax.emb, Tax.children]
  · simp [find_best_match_at_level_nullable, best_match_loop_nullable, Tax.children,
      Tax.emb]
  · simp [find_best_match_at_level_nullable, best_match_loop_nullable, Tax.children,
      Tax.emb]

/-- C4 (amended): with a valid model name the build never fails, and the
`'embedding'` slot of every non-root node of the result is set to exactly
the provider's return value for that node — including `None` when the
provider fails, in which case the key is present holding `None` rather
than being left unset; and on any level containing such a null-embedded
child the key-presence guard admits it and the scan raises the
`AttributeError` of `None.to(device)` — the node is neither skipped nor
scored as similarity 0 or -1. -/
theorem C4_null_embedding_stored_not_skipped {α : Type}
    (embed : String → String → Option α) (t : Tax (Option α)) (model : String)
    (hm : model ∈ valid_models) :
    ((add_embeddings_to_taxonomy embed t model).2 = none) ∧
      (∀ (q : List String) (k : String) (t' : Tax (Option α)),
        (add_embeddings_to_taxonomy embed t model).1.walk (q ++ [k]) = some t' →
        t'.emb = some (embed model k)) ∧
      (∀ (simq : α → ℚ) (u : Tax (Option α)),
        (∃ p ∈ u.children, p.2.emb = some none) →
        find_best_match_at_level_nullable simq u = .error "AttributeError") := by
  refine ⟨?_, ?_, ?_⟩
  · simp [add_embeddings_to_taxonomy, hm]
  · intro q k t' h
    simp only [add_embeddings_to_taxonomy, if_pos hm] at h
    exact add_emb_walk_emb embed model q t.emb t.children k t' h
  · intro simq u hu
    unfold find_best_match_at_level_nullable
    exact best_match_loop_nullable_error simq u.children none (-1) hu

/-- Witness for the amended C4 at the counterexample's inputs: the build
succeeds, node `A` carries the provider's null result in its
`'embedding'` slot, and the level scan over that node raises. -/
theorem C4_null_embedding_stored_not_skipped_witness :
    (add_embeddings_to_taxonomy (fun _ _ => (none : Option Unit))
        (Tax.mk none [("A", Tax.mk none [])]) "clip").2 = none ∧
      (Tax.mk (some (none : Option Unit)) [] : Tax (Option Unit)).emb = some none ∧
      find_best_match_at_level_nullable (fun _ : Unit => (0 : ℚ))
          (Tax.mk none [("A", Tax.mk (some (none : Option Unit)) [])])
        = .error "AttributeError" := by
  have h := C4_null_embedding_stored_not_skipped (fun _ _ => (none : Option Unit))
    (Tax.mk none [("A", Tax.mk none [])]) "clip" (by simp [valid_models])
  refine ⟨h.1, ?_, ?_⟩
  · exact h.2.1 [] "A" (Tax.mk (some none) [])
      (by simp [add_embeddings_to_taxonomy, valid_models, add_emb_entries, Tax.walk,
        lookup_child, Tax.emb, Tax.children])
  · exact h.2.2 (fun _ => 0) (Tax.mk none [("A", Tax.mk (some none) [])])
      ⟨("A", Tax.mk (some none) []), by simp [Tax.children], by simp [Tax.emb]⟩

/-!
Claim C8.  Every label the greedy matcher appends is a key of the level
it was selected from, so the returned path is a valid chain of nodes from
the root; and if the root level has no embedded child the loop selects
nothing and the initial empty path is returned.
-/

theorem walk_append_one {α : Type} :
    ∀ (path : List String) (t : Tax α) (k : String),
      t.walk (path ++ [k]) =
        (t.walk path).bind (fun l => lookup_child l.children k)
  | [], .mk e cs, k => by
    simp only [List.nil_append, Tax.walk, Option.some_bind, Tax.children]
    match hl : lookup_child cs k with
    | some c => simp [Tax.walk, hl]
    | none => simp [Tax.walk, hl]
  | k₁ :: path, .mk e cs, k => by
    simp only [List.cons_append, Tax.walk, Tax.children]
    match hl : lookup_child cs k₁ with
    | some c =>
      simp only [hl]
      exact walk_append_one path c k
    | none => simp [hl]

theorem lookup_of_mem_key {α : Type} :
    ∀ (entries : List (String × Tax α)) (k : String),
      (∃ v, (k, v) ∈ entries) → ∃ c, lookup_child entries k = some c
  | [], k, h => by simp at h
  | (k', v') :: rest, k, h => by
    by_cases hk : k' = k
    · exact ⟨v', by simp [lookup_child, hk]⟩
    · rcases h with ⟨v, hv⟩
      rcases List.mem_cons.mp hv with heq | hmem
      · exact absurd (congrArg Prod.fst heq).symm hk
      · rcases lookup_of_mem_key rest k ⟨v, hmem⟩ with ⟨c, hc⟩
        exact ⟨c, by simp [lookup_child, hk, hc]⟩

theorem best_match_loop_key {α : Type} (sim : α → ℚ) :
    ∀ (entries : List (String × Tax α)) (b : Option String) (hi : ℚ) (k : String),
      (best_match_loop sim entries b hi).1 = some k →
      b = some k ∨ ∃ v, (k, v) ∈ entries
  | [], b, hi, k, h => by
    simp only [best_match_loop] at h
    exact Or.inl h
  | (k', v) :: rest, b, hi, k, h => by
    match hv : v.emb with
    | some e =>
      rw [best_match_loop_cons_some k' rest b hi hv] at h
      by_cases hcmp : sim e > hi
      · rw [if_pos hcmp] at h
        rcases best_match_loop_key sim rest (some k') (sim e) k h with heq | ⟨w, hw⟩
        · injection heq with heq
          exact Or.inr ⟨v, by simp [heq]⟩
        · exact Or.inr ⟨w, by simp [hw]⟩
      · rw [if_neg hcmp] at h
        rcases best_match_loop_key sim rest b hi k h with heq | ⟨w, hw⟩
        · exact Or.inl heq
        · exact Or.inr ⟨w, by simp [hw]⟩
    | none =>
      rw [best_match_loop_cons_none k' rest b hi hv] at h
      rcases best_match_loop_key sim rest b hi k h with heq | ⟨w, hw⟩
      · exact Or.inl heq
      · exact Or.inr ⟨w, by simp [hw]⟩

theorem best_match_at_level_lookup {α : Type} (sim : α → ℚ)
    (e : Option α) (entries : List (String × Tax α)) (bm : String) (s : ℚ)
    (h : find_best_match_at_level sim (.mk e entries) = (some bm, s)) :
    ∃ c, lookup_child entries bm = some c := by
  unfold find_best_match_at_level at h
  have h1 : (best_match_loop sim entries none (-1)).1 = some bm := by
    rw [show (Tax.mk e entries).children = entries from rfl] at h
    rw [h]
  rcases best_match_loop_key sim entries none (-1) bm h1 with heq | hmem
  · exact absurd heq (by simp)
  · exact lookup_of_mem_key entries bm hmem

theorem take_append_isSome {α : Type} (t : Tax α) (path : List String) (bm : String)
    (c : Tax α) (hpre : ∀ n, (t.walk (path.take n)).isSome)
    (hnew : t.walk (path ++ [bm]) = some c) :
    ∀ n, (t.walk ((path ++ [bm]).take n)).isSome := by
  intro n
  by_cases hn : n ≤ path.length
  · rw [List.take_append_of_le_length hn]
    exact hpre n
  · have hlen : (path ++ [bm]).length ≤ n := by
      simp only [List.length_append, List.length_singleton]
      omega
    rw [List.take_of_length_le hlen, hnew]
    rfl

theorem find_best_matches_none {α : Type} (sim : α → ℚ) {e : Option α}
    {entries : List (String × Tax α)} (path : List String) {s : ℚ}
    (hbm : find_best_match_at_level sim (.mk e entries) = (none, s)) :
    find_best_matches sim (.mk e entries) path = path := by
  conv_lhs => rw [find_best_matches]
  rw [hbm]

theorem find_best_matches_step {α : Type} (sim : α → ℚ) {e : Option α}
    {entries : List (String × Tax α)} (path : List String) {bm : String} {s : ℚ}
    {c : Tax α}
    (hbm : find_best_match_at_level sim (.mk e entries) = (some bm, s))
    (hl : lookup_child entries bm = some c) :
    find_best_matches sim (.mk e entries) path =
      if c.emb.isSome then find_best_matches sim c (path ++ [bm])
      else path ++ [bm] := by
  conv_lhs => rw [find_best_matches]
  rw [hbm]
  dsimp only
  split
  · next c2 heq =>
    rw [hl] at heq
    injection heq with heq
    rw [heq]
  · next heq =>
    rw [hl] at heq
    exact absurd heq (by simp)

theorem fbm_walk {α : Type} (sim : α → ℚ) (t : Tax α) :
    ∀ (lvl : Tax α) (path : List String),
      t.walk path = some lvl →
      (∀ n, (t.walk (path.take n)).isSome) →
      ∀ n, (t.walk ((find_best_matches sim lvl path).take n)).isSome := by
  intro lvl path
  induction lvl, path using find_best_matches.induct sim with
  | case1 e entries path s hbm =>
    intro hw hpre n
    rw [find_best_matches_none sim path hbm]
    exact hpre n
  | case2 e entries path bm s hbm c hl hemb ih =>
    intro hw hpre n
    rw [find_best_matches_step sim path hbm hl, if_pos hemb]
    have hnew : t.walk (path ++ [bm]) = some c := by
      rw [walk_append_one path t bm, hw]
      simp [Tax.children, hl]
    exact ih hnew (take_append_isSome t path bm c hpre hnew) n
  | case3 e entries path bm s hbm c hl hemb =>
    intro hw hpre n
    rw [find_best_matches_step sim path hbm hl, if_neg hemb]
    have hnew : t.walk (path ++ [bm]) = some c := by
      rw [walk_append_one path t bm, hw]
      simp [Tax.children, hl]
    exact take_append_isSome t path bm c hpre hnew n
  | case4 e entries path bm s hbm hl =>
    intro hw hpre n
    rcases best_match_at_level_lookup sim e entries bm s hbm with ⟨c, hc⟩
    rw [hl] at hc
    exact absurd hc (by simp)

/-- C8: the path returned by the greedy matcher exists in the tree —
every prefix of the returned label sequence walks to a node from the
root — and when the root has no embedded (scorable) child the matcher
returns the empty path rather than failing. -/
theorem C8_greedy_path_exists_in_tree {α : Type} (sim : α → ℚ) (t : Tax α) :
    (∀ n, (t.walk ((find_best_matches sim t []).take n)).isSome) ∧
      (embedded_children t.children = [] → find_best_matches sim t [] = []) := by
  constructor
  · intro n
    refine fbm_walk sim t t [] ?_ (fun m => ?_) n
    · cases t
      rfl
    · rw [List.take_nil]
      cases t
      rfl
  · intro h
    match t with
    | .mk e entries =>
      have hlvl : find_best_match_at_level sim (.mk e entries) = (none, -1) := by
        unfold find_best_match_at_level
        rw [best_match_loop_eq]
        rw [show (Tax.mk e entries).children = entries from rfl]
        rw [show embedded_children (Tax.mk e entries).children =
            embedded_children entries from rfl] at h
        rw [h]
        rfl
      exact find_best_matches_none sim [] hlvl

/-- Witness for C8 on a label-policy tree: the greedy matcher descends to
`Tops -> T-Shirt`, whose every prefix is a valid chain, and on an
embedding-free root it returns the empty path. -/
theorem C8_greedy_path_exists_in_tree_witness :
    (Tax.walk
        (Tax.mk none
          [("Tops", Tax.mk (some ((8:ℚ)/10))
            [("T-Shirt", Tax.mk (some ((9:ℚ)/10)) []),
             ("Blouse", Tax.mk (some ((1:ℚ)/2)) [])]),
           ("Bottoms", Tax.mk (some ((2:ℚ)/10)) [("Jeans", Tax.mk (some ((3:ℚ)/10)) [])])])
        ((find_best_matches (fun q : ℚ => q)
          (Tax.mk none
            [("Tops", Tax.mk (some ((8:ℚ)/10))
              [("T-Shirt", Tax.mk (some ((9:ℚ)/10)) []),
               ("Blouse", Tax.mk (some ((1:ℚ)/2)) [])]),
             ("Bottoms", Tax.mk (some ((2:ℚ)/10)) [("Jeans", Tax.mk (some ((3:ℚ)/10)) [])])])
          []).take 2)).isSome ∧
      find_best_matches (fun q : ℚ => q) (Tax.mk none [("X", Tax.mk none [])]) [] = [] := by
  constructor
  · exact (C8_greedy_path_exists_in_tree (fun q : ℚ => q)
      (Tax.mk none
        [("Tops", Tax.mk (some ((8:ℚ)/10))
          [("T-Shirt", Tax.mk (some ((9:ℚ)/10)) []),
           ("Blouse", Tax.mk (some ((1:ℚ)/2)) [])]),
         ("Bottoms", Tax.mk (some ((2:ℚ)/10)) [("Jeans", Tax.mk (some ((3:ℚ)/10)) [])])])).1 2
  · exact (C8_greedy_path_exists_in_tree (fun q : ℚ => q)
      (Tax.mk none [("X", Tax.mk none [])])).2
      (by simp [embedded_children, Tax.children, Tax.emb])

/-!
Claim C6.  `add_embedding_to_leaves` embeds only the empty-dict leaves;
the phrase embedded at a leaf is
`f"a photo of a {current_path.lower()}".strip()` where `current_path`
prepends each label on the way down (`f"{key} {current_path}"`), i.e. the
labels from the leaf upward to the root, each followed by one space.  For
a non-empty path whose (lower-cased) joined label text does not end in
whitespace, stripping removes exactly the one trailing space, giving
`"a photo of a " ++ lower(labels joined leaf→root)`.
-/

theorem string_mk_data (s : String) : String.mk s.data = s := by
  cases s
  rfl

theorem py_lower_append (a b : String) : py_lower (a ++ b) = py_lower a ++ py_lower b := by
  cases a with
  | mk la =>
    cases b with
    | mk lb =>
      show String.mk ((la ++ lb).map Char.toLower) =
        String.mk (la.map Char.toLower ++ lb.map Char.toLower)
      rw [List.map_append]

/-- Helper: the concatenation `lk ++ " " ++ (… (l1 ++ " " ++ "") …)` that
`add_embedding_to_leaves` accumulates, label list read front-first. -/
def spaced : List String → String
  | [] => ""
  | l :: rest => l ++ " " ++ spaced rest

theorem string_append_empty (s : String) : s ++ "" = s := by
  cases s
  show String.mk _ = String.mk _
  simp

theorem string_append_assoc (a b c : String) : a ++ b ++ c = a ++ (b ++ c) := by
  cases a
  cases b
  cases c
  show String.mk _ = String.mk _
  rw [List.append_assoc]

theorem spaced_append_one :
    ∀ (xs : List String) (l : String), spaced (xs ++ [l]) = spaced xs ++ (l ++ " ")
  | [], l => by
    show l ++ " " ++ spaced [] = "" ++ (l ++ " ")
    show l ++ " " ++ "" = "" ++ (l ++ " ")
    rw [string_append_empty]
    cases l
    show String.mk _ = String.mk _
    simp [show (" " : String).data = [' '] from rfl, show ("" : String).data = [] from rfl]
  | x :: xs, l => by
    show x ++ " " ++ spaced (xs ++ [l]) = x ++ " " ++ spaced xs ++ (l ++ " ")
    rw [spaced_append_one xs l, ← string_append_assoc]

theorem foldl_spaced :
    ∀ (p : List String) (cp : String),
      p.foldl (fun c k => k ++ " " ++ c) cp = spaced p.reverse ++ cp
  | [], cp => by
    show cp = spaced [] ++ cp
    show cp = "" ++ cp
    cases cp
    show String.mk _ = String.mk _
    simp [show ("" : String).data = [] from rfl]
  | l :: p, cp => by
    simp only [List.foldl_cons, List.reverse_cons]
    rw [foldl_spaced p (l ++ " " ++ cp), spaced_append_one, string_append_assoc,
      string_append_assoc, string_append_assoc l " " cp]

theorem spaced_eq_join_labels :
    ∀ xs : List String, xs ≠ [] → spaced xs = join_labels xs ++ " "
  | [], h => absurd rfl h
  | [l], _ => by
    show l ++ " " ++ spaced [] = join_labels [l] ++ " "
    show l ++ " " ++ "" = l ++ " "
    rw [string_append_empty]
  | l :: x :: rest, _ => by
    show l ++ " " ++ spaced (x :: rest) = join_labels (l :: x :: rest) ++ " "
    rw [spaced_eq_join_labels (x :: rest) (by simp),
      show join_labels (l :: x :: rest) = l ++ " " ++ join_labels (x :: rest) from rfl,
      string_append_assoc, string_append_assoc,
      string_append_assoc l " " (join_labels (x :: rest) ++ " ")]

theorem path_text_eq_join (p : List String) (hp : p ≠ []) :
    path_text p = join_labels p.reverse ++ " " := by
  unfold path_text
  rw [foldl_spaced p "", string_append_empty,
    spaced_eq_join_labels p.reverse (by simp [hp])]

theorem dropWhile_photo (T : List Char) :
    ("a photo of a ".data ++ T).dropWhile Char.isWhitespace =
      "a photo of a ".data ++ T := by
  rw [show "a photo of a ".data = 'a' :: " photo of a ".data from rfl, List.cons_append,
    List.dropWhile_cons, if_neg (by decide)]

theorem py_strip_photo (S : String) (ch : Char) (hlast : S.data.getLast? = some ch)
    (hws : ch.isWhitespace = false) :
    py_strip ("a photo of a " ++ (S ++ " ")) = "a photo of a " ++ S := by
  obtain ⟨rest, hrev⟩ : ∃ rest, S.data.reverse = ch :: rest := by
    have h1 : S.data.reverse.head? = some ch := by
      rw [List.head?_reverse]
      exact hlast
    match hr : S.data.reverse with
    | [] => rw [hr] at h1; simp at h1
    | c :: rest =>
      rw [hr] at h1
      simp only [List.head?_cons, Option.some_inj] at h1
      exact ⟨rest, by rw [h1]⟩
  have hdata : ("a photo of a " ++ (S ++ " ")).data =
      "a photo of a ".data ++ (S.data ++ [' ']) := by
    cases S
    rfl
  have htarget : ("a photo of a " ++ S).data = "a photo of a ".data ++ S.data := by
    cases S
    rfl
  unfold py_strip
  rw [hdata, dropWhile_photo]
  have hlist : ((("a photo of a ".data ++ (S.data ++ [' '])).reverse.dropWhile
        Char.isWhitespace)).reverse = "a photo of a ".data ++ S.data := by
    rw [show "a photo of a ".data ++ (S.data ++ [' ']) =
        ("a photo of a ".data ++ S.data) ++ [' '] from by rw [List.append_assoc]]
    rw [List.reverse_append, List.reverse_singleton, List.singleton_append,
      List.dropWhile_cons, if_pos (by decide), List.reverse_append, hrev,
      List.cons_append, List.dropWhile_cons, if_neg (by simp [hws]), ← List.cons_append,
      ← hrev, ← List.reverse_append, List.reverse_reverse]
  rw [hlist, ← htarget, string_mk_data]

theorem strip_photo_lower (p : List String) (hp : p ≠ []) (ch : Char)
    (hlast : (py_lower (join_labels p.reverse)).data.getLast? = some ch)
    (hws : ch.isWhitespace = false) :
    py_strip ("a photo of a " ++ py_lower (path_text p)) =
      "a photo of a " ++ py_lower (join_labels p.reverse) := by
  rw [path_text_eq_join p hp, py_lower_append,
    show py_lower " " = " " from rfl]
  exact py_strip_photo (py_lower (join_labels p.reverse)) ch hlast hws

theorem leaves_entries_lookup {α : Type} (embed : String → α) :
    ∀ (entries : List (String × RawTax)) (cp k : String),
      lookup_child (leaves_entries embed entries cp) k =
        Option.map (fun v => add_embedding_to_leaves embed v (k ++ " " ++ cp))
          (lookup_raw entries k)
  | [], _, _ => rfl
  | (k', v) :: rest, cp, k => by
    by_cases hk : k' = k
    · subst hk
      simp [leaves_entries, lookup_child, lookup_raw]
    · simp only [leaves_entries, lookup_child, lookup_raw, if_neg hk]
      exact leaves_entries_lookup embed rest cp k

theorem leaves_walk {α : Type} (embed : String → α) :
    ∀ (p : List String) (raw : RawTax) (cp : String) (t' : Tax α),
      (add_embedding_to_leaves embed raw cp).walk p = some t' →
      ∃ r', raw.walk p = some r' ∧
        t' = add_embedding_to_leaves embed r' (p.foldl (fun c k => k ++ " " ++ c) cp)
  | [], raw, cp, t', h => by
    refine ⟨raw, ?_, ?_⟩
    · cases raw
      rfl
    · have h1 : some (add_embedding_to_leaves embed raw cp) = some t' := by
        rw [← h]
        cases hx : add_embedding_to_leaves embed raw cp
        rfl
      injection h1 with h1
      exact h1.symm
  | k :: p, .mk [], cp, t', h => by
    simp [add_embedding_to_leaves, Tax.walk, lookup_child] at h
  | k :: p, .mk (e :: es), cp, t', h => by
    simp only [add_embedding_to_leaves, Tax.walk] at h
    rw [leaves_entries_lookup] at h
    match hl : lookup_raw (e :: es) k with
    | some v =>
      rw [hl] at h
      simp only [Option.map_some'] at h
      rcases leaves_walk embed p v (k ++ " " ++ cp) t' h with ⟨r', hr, ht⟩
      refine ⟨r', ?_, ?_⟩
      · simp [RawTax.walk, hl, hr]
      · rw [ht]
        rfl
    | none =>
      rw [hl] at h
      simp at h

/-- C6: under the path-embedding policy only leaf nodes (empty raw dicts)
carry an embedding — internal nodes carry none — and the text embedded at
the leaf reached by label path `p` is
`strip("a photo of a " + lower(path accumulated leaf→root))`; for a
non-empty `p` whose lower-cased joined labels do not end in whitespace,
this equals `"a photo of a "` followed by the labels joined from the leaf
upward to the root, lower-cased. -/
theorem C6_leaf_embedding_path_phrase {α : Type} (embed : String → α) (raw : RawTax)
    (p : List String) (t' : Tax α)
    (hw : (add_embedding_to_leaves embed raw "").walk p = some t') :
    (∀ e es, raw.walk p = some (.mk (e :: es)) → t'.emb = none) ∧
      (raw.walk p = some (.mk []) →
        t'.emb = some (embed (py_strip ("a photo of a " ++ py_lower (path_text p)))) ∧
        (∀ ch, p ≠ [] →
          (py_lower (join_labels p.reverse)).data.getLast? = some ch →
          ch.isWhitespace = false →
          t'.emb = some (embed ("a photo of a " ++ py_lower (join_labels p.reverse))))) := by
  rcases leaves_walk embed p raw "" t' hw with ⟨r', hr, ht⟩
  constructor
  · intro e es h
    rw [h] at hr
    injection hr with hr
    rw [ht, ← hr]
    rfl
  · intro h
    rw [h] at hr
    injection hr with hr
    have hemb : t'.emb =
        some (embed (py_strip ("a photo of a " ++ py_lower (path_text p)))) := by
      rw [ht, ← hr]
      rfl
    refine ⟨hemb, fun ch hp hlast hws => ?_⟩
    rw [hemb, strip_photo_lower p hp ch hlast hws]

/-- Witness for C6 on the raw hierarchy `{'Tops': {'T-Shirt': {}}}`: the
leaf's embedded phrase is exactly `"a photo of a "` plus the lower-cased
labels joined leaf→root. -/
theorem C6_leaf_embedding_path_phrase_witness :
    (Tax.mk (some "a photo of a t-shirt tops") [] : Tax String).emb
      = some ("a photo of a " ++ py_lower (join_labels ["Tops", "T-Shirt"].reverse)) := by
  have h := C6_leaf_embedding_path_phrase (fun s : String => s)
    (RawTax.mk [("Tops", RawTax.mk [("T-Shirt", RawTax.mk [])])])
    ["Tops", "T-Shirt"] (Tax.mk (some "a photo of a t-shirt tops") []) (by rfl)
  exact (h.2 (by rfl)).2 's' (by simp) (by rfl) (by decide)
